import Mathlib

/-!
Verification of the syzkaller fuzzer worker process (`syz-fuzzer/proc.go`).

The file shallowly embeds the worker's logic: the coverage-signal algebra,
the execution driver's retry loop (`executeRaw`), the post-execution novelty
hook (`execute`), the triage engine (`triageInput`), the fault-injection
loop (`failCall`), and the idle branch of the worker loop (`loop`).

External effects (the execution environment `ipc.Env.Exec`, the random
number generator, program mutation) are supplied as oracle parameters, so
every path of the Go control flow is represented as a pure function.
-/

namespace Proc

/-- A coverage signal: a set of coverage-feedback identifiers
(`uint32` values in the source, modelled as naturals). -/
abbrev Sig := Finset ℕ

/-- Modelled from the spec: `cover.SignalDiff(base, s)` (package `pkg/cover`,
not in the sources) computes the elements of `s` absent from `base`
("computes the difference against max signal"). -/
def SignalDiff (base s : Sig) : Sig := s \ base

/-- Modelled from the spec: `cover.SignalAdd(dst, s)` (package `pkg/cover`,
not in the sources) adds the elements of `s` into `dst`; the Go function
mutates `dst` in place, here the new value of `dst` is returned. -/
def SignalAdd (dst s : Sig) : Sig := dst ∪ s

/-- Modelled from the spec: `cover.SignalNew(base, s)` (package `pkg/cover`,
not in the sources) tests whether `s` contains any identifier absent from
`base` ("contains-novel-element test"). -/
def SignalNew (base s : Sig) : Bool := SignalDiff base s ≠ ∅

/-- Modelled from the spec: `cover.Intersection` (package `pkg/cover`,
not in the sources) is set intersection of two signals. -/
def Intersection (a b : Sig) : Sig := a ∩ b

/-- Modelled from the spec: `cover.Union` over ordered cover sequences
(package `pkg/cover`, not in the sources): the union of the two sequences,
keeping the elements of the first followed by the new elements of the second. -/
def coverUnion (a b : List ℕ) : List ℕ := a ++ b.filter (fun x => x ∉ a)

/-- Per-call execution result (`ipc.CallInfo`): the raw signal, the ordered
cover sequence, and the fault-injection outcome. Comparison operands are
omitted (not used by any verified path). -/
structure CallInfo where
  Signal : Sig
  Cover : List ℕ
  FaultInjected : Bool
deriving DecidableEq

instance : Inhabited CallInfo := ⟨⟨∅, [], false⟩⟩

/-- Outcome of one `proc.env.Exec(opts, p)` invocation, as classified by
`executeRaw`: the `failed` flag (executor-detected BUG), a retryable
environment error, a non-retryable `ipc.ExecutorFailure`, or success with
per-call results. -/
inductive ExecResult where
  | failed
  | errRetryable
  | errExecutorFailure
  | ok (info : List CallInfo)
deriving DecidableEq

/-- What `executeRaw` does after its retry loop: return `nil` on an
executor-detected BUG, return the per-call info on success, or `panic`. -/
inductive RawOutcome where
  | bugNil
  | ok (info : List CallInfo)
  | fatal
deriving DecidableEq

/-- Observable trace of one `executeRaw` call: its outcome, the number of
`env.Exec` invocations, the number of `time.Sleep(time.Second)` calls, the
number of `debug.FreeOSMemory()` calls, and the number of
`atomic.AddUint64(&stats[stat], 1)` increments. -/
structure RawTrace where
  outcome : RawOutcome
  execs : ℕ
  sleeps : ℕ
  memReleases : ℕ
  stats : ℕ
deriving DecidableEq

/-- The retry loop of `executeRaw` (proc.go:326-347). The Go code counts up
with `try` and panics on an error when `try > 10`; here `remaining` counts
down, with `remaining = 11 - try`, so the guard `try > 10` is exactly
`remaining = 0`. Each loop pass increments the stat counter and runs
`env.Exec` (`oracle i` is the result of the i-th invocation); a `failed`
result returns `nil`; an `ipc.ExecutorFailure` or an exhausted budget
panics; a retryable error releases memory, sleeps one second and retries. -/
def executeRawAux (oracle : ℕ → ExecResult) : ℕ → ℕ → RawTrace
  | i, 0 =>
    match oracle i with
    | .failed => ⟨.bugNil, 1, 0, 0, 1⟩
    | .ok info => ⟨.ok info, 1, 0, 0, 1⟩
    | .errExecutorFailure => ⟨.fatal, 1, 0, 0, 1⟩
    | .errRetryable => ⟨.fatal, 1, 0, 0, 1⟩
  | i, r + 1 =>
    match oracle i with
    | .failed => ⟨.bugNil, 1, 0, 0, 1⟩
    | .ok info => ⟨.ok info, 1, 0, 0, 1⟩
    | .errExecutorFailure => ⟨.fatal, 1, 0, 0, 1⟩
    | .errRetryable =>
      let t := executeRawAux oracle (i + 1) r
      ⟨t.outcome, t.execs + 1, t.sleeps + 1, t.memReleases + 1, t.stats + 1⟩

/-- `executeRaw` starts with `try := 0`, i.e. `remaining = 11`. -/
def executeRawModel (oracle : ℕ → ExecResult) : RawTrace :=
  executeRawAux oracle 0 11

/-- The three process-wide signal sets (`corpusSignal`, `maxSignal`,
`newSignal` in the source), guarded there by `signalMu`. -/
structure SigState where
  corpusSignal : Sig
  maxSignal : Sig
  newSignal : Sig
deriving DecidableEq

/-- A `WorkTriage` item as enqueued by `execute` (proc.go:269-275): the
program (an opaque identifier here), the call index, a copy of that call's
raw signal, and the `candidate`/`minimized` tags. -/
structure TriageItem where
  p : ℕ
  call : ℕ
  signal : Sig
  candidate : Bool
  minimized : Bool
deriving DecidableEq

/-- The post-execution novelty hook of `execute` (proc.go:256-276): for
each per-call result (in call order, `maxSignal` re-read every iteration),
if the call's signal has an element outside max signal, add the difference
into max signal and new signal and enqueue a triage item carrying the
call index, the raw signal and the originating flags. Returns the updated
signal state and the enqueued items in order. -/
def executeHook (p : ℕ) (minimized candidate : Bool) :
    List CallInfo → ℕ → SigState → SigState × List TriageItem
  | [], _, st => (st, [])
  | inf :: rest, i, st =>
    if SignalNew st.maxSignal inf.Signal then
      let diff := SignalDiff st.maxSignal inf.Signal
      let st2 : SigState :=
        { st with maxSignal := SignalAdd st.maxSignal diff,
                  newSignal := SignalAdd st.newSignal diff }
      let r := executeHook p minimized candidate rest (i + 1) st2
      (r.1, ⟨p, i, inf.Signal, candidate, minimized⟩ :: r.2)
    else
      executeHook p minimized candidate rest (i + 1) st

/-- `execute` (proc.go:239-278): run `executeRaw`, then the novelty hook
over the per-call results. A `fatal` raw outcome is a worker panic
(`none`); an executor-detected BUG yields `nil` info, over which the hook
iterates zero times. Returns the signal state, the enqueued triage items,
and the number of `env.Exec` invocations. -/
def executeModel (oracle : ℕ → ExecResult) (p : ℕ) (minimized candidate : Bool)
    (st : SigState) : Option (SigState × List TriageItem × ℕ) :=
  let t := executeRawModel oracle
  match t.outcome with
  | .fatal => none
  | .bugNil => some (st, [], t.execs)
  | .ok info =>
    let r := executeHook p minimized candidate info 0 st
    some (r.1, r.2, t.execs)

/-- A worker's view of the shared signal sets together with the triage
items currently enqueued on the work queue. -/
structure WorkerState where
  sig : SigState
  pending : List TriageItem
deriving DecidableEq

/-- The signal-mutating operations a worker performs:
`runExec` is one `execute` call whose raw execution produced the per-call
results `info` (proc.go:252-277; a nil result is `info = []`), which runs
the novelty hook and enqueues the produced triage items;
`commitTriage k` is a `triageInput` on the k-th pending item that reaches
`cover.SignalAdd(corpusSignal, item.signal)` (proc.go:181-183);
`dropTriage k` is a `triageInput` on the k-th pending item that returns
early without touching corpus signal (proc.go:101-103, 130-131, 138-139). -/
inductive WorkerOp where
  | runExec (p : ℕ) (info : List CallInfo) (minimized candidate : Bool)
  | commitTriage (k : ℕ)
  | dropTriage (k : ℕ)

/-- One worker operation applied to the worker state. -/
def stepOp (s : WorkerState) : WorkerOp → WorkerState
  | .runExec p info m c =>
    let r := executeHook p m c info 0 s.sig
    ⟨r.1, s.pending ++ r.2⟩
  | .commitTriage k =>
    match s.pending.get? k with
    | none => s
    | some it =>
      ⟨{ s.sig with corpusSignal := SignalAdd s.sig.corpusSignal it.signal },
        s.pending.eraseIdx k⟩
  | .dropTriage k => ⟨s.sig, s.pending.eraseIdx k⟩

/-- At process start all three signal sets are empty and no work is
pending. -/
def initWorkerState : WorkerState := ⟨⟨∅, ∅, ∅⟩, []⟩

/-- The signal invariant: corpus signal and new signal are subsets of max
signal, and every pending triage item's captured signal is already inside
max signal. -/
def WorkerInv (s : WorkerState) : Prop :=
  s.sig.corpusSignal ⊆ s.sig.maxSignal ∧
  s.sig.newSignal ⊆ s.sig.maxSignal ∧
  ∀ it ∈ s.pending, it.signal ⊆ s.sig.maxSignal

/-- The target call did not execute in a triage run, in the sense of
proc.go:128: the info slice is empty (nil result) or the call produced an
empty signal. -/
def nonExec (call : ℕ) (info : List CallInfo) : Prop :=
  info.length = 0 ∨ (info.getD call default).Signal = ∅

instance (call : ℕ) (info : List CallInfo) : Decidable (nonExec call info) := by
  unfold nonExec; infer_instance

/-- How the deflake loop of `triageInput` ends: an early `return` because a
call failed to execute twice (proc.go:130-131), an early `return` because
the running signal intersection became empty (proc.go:138-139), or normal
completion with the narrowed signal and accumulated cover. -/
inductive DeflakeRes where
  | abortFlaky
  | abortEmpty
  | ok (newSig : Sig) (cover : List ℕ)
deriving DecidableEq

/-- The non-pre-minimized triage loop (proc.go:125-146): up to 3
executions (`runs j` is the info returned by the j-th `executeRaw`).
A run where the call did not execute is tolerated once (`notexecuted`
starts false and is never reset); otherwise the running novel signal is
intersected with the run's canonicalized signal, aborting if it becomes
empty, and the run's cover is unioned in. Returns the number of
executions performed together with the result. -/
def deflake (canon : Sig → Sig) (call : ℕ) (runs : ℕ → List CallInfo) :
    ℕ → ℕ → Sig → List ℕ → Bool → ℕ × DeflakeRes
  | _, 0, newSig, cover, _ => (0, .ok newSig cover)
  | j, r + 1, newSig, cover, notexecuted =>
    let info := runs j
    if nonExec call info then
      if notexecuted then (1, .abortFlaky)
      else
        let t := deflake canon call runs (j + 1) r newSig cover true
        (t.1 + 1, t.2)
    else
      let inf := info.getD call default
      let newSig2 := Intersection newSig (canon inf.Signal)
      if newSig2 = ∅ then (1, .abortEmpty)
      else
        let cover2 := if cover.length = 0 then inf.Cover else coverUnion cover inf.Cover
        let t := deflake canon call runs (j + 1) r newSig2 cover2 notexecuted
        (t.1 + 1, t.2)

/-- The running novel signal of the deflake loop after the first `k` runs
have been processed: a run that does not execute the call leaves it
unchanged, a successful run intersects it with that run's canonicalized
signal (the signal evolution of proc.go:137, ignoring the aborts). -/
def deflakeSig (canon : Sig → Sig) (call : ℕ) (runs : ℕ → List CallInfo) :
    ℕ → Sig → Sig
  | 0, s => s
  | k + 1, s =>
    let s' := deflakeSig canon call runs k s
    if nonExec call (runs k) then s'
    else Intersection s' (canon ((runs k).getD call default).Signal)

/-- The pre-minimized triage loop (proc.go:115-122): up to 3 executions
purely to harvest the call's cover; the first run with a non-empty cover
wins; non-executions never abort. Returns the number of executions
performed and the harvested cover. -/
def coverLoop (call : ℕ) (runs : ℕ → List CallInfo) : ℕ → ℕ → ℕ × List ℕ
  | _, 0 => (0, [])
  | j, r + 1 =>
    let info := runs j
    if info.length = 0 ∨ (info.getD call default).Cover = [] then
      let t := coverLoop call runs (j + 1) r
      (t.1 + 1, t.2)
    else (1, (info.getD call default).Cover)

/-- The minimization acceptance predicate of `triageInput`
(proc.go:148-161): a candidate reduced program (whose re-execution
produced `info`, with the interesting call now at `call1`) is accepted
iff the call executed with a non-empty signal and the intersection of the
locked-in novel signal with the call's canonicalized signal has the same
size as the novel signal itself. -/
def minimizePred (canon : Sig → Sig) (newSig : Sig) (info : List CallInfo)
    (call1 : ℕ) : Bool :=
  if info.length = 0 ∨ (info.getD call1 default).Signal = ∅ then false
  else (Intersection newSig (canon (info.getD call1 default).Signal)).card = newSig.card

/-- The externally observable effects of one `triageInput` call: the final
corpus signal, whether `Manager.NewInput` was called (proc.go:177), whether
`addInputToCorpus` ran (proc.go:185), whether a `WorkSmash` item was
enqueued (proc.go:188), how many triage executions ran, and whether
`prog.Minimize` was invoked (proc.go:148). -/
structure TriageOutput where
  corpusSignal : Sig
  reported : Bool
  corpusAdded : Bool
  smashEnqueued : Bool
  execs : ℕ
  minimizeInvoked : Bool
deriving DecidableEq

/-- `triageInput` (proc.go:90-190) with the executions abstracted by
`runs`. If the item's captured signal minus the current corpus signal is
empty, return immediately (proc.go:101-103). Otherwise canonicalize it;
a pre-minimized item harvests cover and is reported and added without
minimization or smash; a non-pre-minimized item runs the deflake loop —
whose early returns abandon the item with no further effect — then
minimization, report, corpus-signal add, corpus add and a smash enqueue.
`prog.Minimize` and the manager RPC are external; only their invocation
is recorded. -/
def triageInputModel (canon : Sig → Sig) (corpusSignal : Sig)
    (item : TriageItem) (runs : ℕ → List CallInfo) : TriageOutput :=
  let newSig := SignalDiff corpusSignal item.signal
  if newSig = ∅ then
    ⟨corpusSignal, false, false, false, 0, false⟩
  else if item.minimized then
    let t := coverLoop item.call runs 0 3
    ⟨SignalAdd corpusSignal item.signal, true, true, false, t.1, false⟩
  else
    match deflake canon item.call runs 0 3 (canon newSig) [] false with
    | (e, .abortFlaky) => ⟨corpusSignal, false, false, false, e, false⟩
    | (e, .abortEmpty) => ⟨corpusSignal, false, false, false, e, false⟩
    | (e, .ok _ _) =>
      ⟨SignalAdd corpusSignal item.signal, true, true, true, e, true⟩

/-- The break condition of the `failCall` loop (proc.go:216): the trial's
result is non-nil, covers the target call, and reports the fault as not
injected. `none` models a nil info slice. -/
def faultDone (call : ℕ) : Option (List CallInfo) → Bool
  | none => false
  | some info => decide (info.length > call) && !(info.getD call default).FaultInjected

/-- `failCall` (proc.go:208-220) with the executions abstracted by `res`.
Trials run for `nth` from 0 up to the cap of 100; a trial satisfying the
break condition stops the loop. Returns the number of executions
performed and the trial index at which the loop broke, if it did. -/
def failCallAux (call : ℕ) (res : ℕ → Option (List CallInfo)) :
    ℕ → ℕ → ℕ × Option ℕ
  | _, 0 => (0, none)
  | nth, r + 1 =>
    if faultDone call (res nth) then (1, some nth)
    else
      let t := failCallAux call res (nth + 1) r
      (t.1 + 1, t.2)

/-- `failCall` starts at `nth = 0` with the 100-trial cap. -/
def failCallModel (call : ℕ) (res : ℕ → Option (List CallInfo)) : ℕ × Option ℕ :=
  failCallAux call res 0 100

/-- The statistics kinds (`Stat` constants of `rpctype`). -/
inductive Stat where
  | generate
  | fuzz
  | candidate
  | triage
  | minimize
  | smash
  | seed
  | hint
deriving DecidableEq

/-- What the idle branch of the worker loop decides to do: which stat kind
the execution is tagged with, the corpus index picked for mutation (none
on the generate path), and the corpus snapshot used as mutation source
(empty on the generate path). -/
structure IdleDecision where
  stat : Stat
  picked : Option ℕ
  mutationSource : List ℕ
deriving DecidableEq

/-- The idle branch of `loop` (proc.go:74-86): with no work item, take a
corpus snapshot; if it is empty or the iteration counter is a multiple of
100, generate a fresh program (StatGenerate); otherwise clone the program
at the random index `idx` (`rnd.Intn(len(corpus))`), mutate it with the
corpus as mutation source, and execute it (StatFuzz). -/
def idleStep (corpus : List ℕ) (i idx : ℕ) : IdleDecision :=
  if corpus.length = 0 ∨ i % 100 = 0 then ⟨.generate, none, []⟩
  else ⟨.fuzz, some idx, corpus⟩

theorem executeRawAux_counts (oracle : ℕ → ExecResult) :
    ∀ r i, (executeRawAux oracle i r).execs ≤ r + 1 ∧
      (executeRawAux oracle i r).sleeps + 1 = (executeRawAux oracle i r).execs ∧
      (executeRawAux oracle i r).memReleases = (executeRawAux oracle i r).sleeps ∧
      (executeRawAux oracle i r).stats = (executeRawAux oracle i r).execs := by
  intro r
  induction r with
  | zero =>
    intro i
    cases h : oracle i <;> simp [executeRawAux, h]
  | succ r ih =>
    intro i
    cases h : oracle i <;> simp [executeRawAux, h]
    obtain ⟨h1, h2, h3, h4⟩ := ih (i + 1)
    refine ⟨by omega, by omega, by omega, by omega⟩

theorem executeRawAux_allRetry (oracle : ℕ → ExecResult)
    (hall : ∀ n, oracle n = .errRetryable) :
    ∀ r i, executeRawAux oracle i r = ⟨.fatal, r + 1, r, r, r + 1⟩ := by
  intro r
  induction r with
  | zero => intro i; simp [executeRawAux, hall i]
  | succ r ih => intro i; simp [executeRawAux, hall i, ih (i + 1)]

theorem executeRawAux_success (oracle : ℕ → ExecResult) (info : List CallInfo) :
    ∀ n j r, n ≤ r → (∀ k, k < n → oracle (j + k) = .errRetryable) →
      oracle (j + n) = .ok info →
      executeRawAux oracle j r = ⟨.ok info, n + 1, n, n, n + 1⟩ := by
  intro n
  induction n with
  | zero =>
    intro j r _ _ hok
    cases r <;> simp only [executeRawAux] <;> rw [show j + 0 = j from rfl] at hok <;>
      simp [hok]
  | succ n ih =>
    intro j r hr hpre hok
    obtain ⟨r', rfl⟩ : ∃ r', r = r' + 1 := ⟨r - 1, by omega⟩
    have hj : oracle j = .errRetryable := by
      have := hpre 0 (by omega)
      simpa using this
    have hrec := ih (j + 1) r' (by omega)
      (fun k hk => by
        have := hpre (k + 1) (by omega)
        rwa [show j + (k + 1) = j + 1 + k by omega] at this)
      (by rwa [show j + 1 + n = j + (n + 1) by omega])
    simp [executeRawAux, hj, hrec]

theorem executeHook_corpus (p : ℕ) (m c : Bool) :
    ∀ (info : List CallInfo) (i : ℕ) (st : SigState),
      (executeHook p m c info i st).1.corpusSignal = st.corpusSignal := by
  intro info
  induction info with
  | nil => intro i st; rfl
  | cons inf rest ih =>
    intro i st
    by_cases h : SignalNew st.maxSignal inf.Signal
    · simp only [executeHook, h, if_true]
      exact ih (i + 1) _
    · simp only [executeHook, h, if_false]
      exact ih (i + 1) st

theorem executeHook_max_mono (p : ℕ) (m c : Bool) :
    ∀ (info : List CallInfo) (i : ℕ) (st : SigState),
      st.maxSignal ⊆ (executeHook p m c info i st).1.maxSignal := by
  intro info
  induction info with
  | nil => intro i st; exact subset_rfl
  | cons inf rest ih =>
    intro i st
    by_cases h : SignalNew st.maxSignal inf.Signal
    · simp only [executeHook, h, if_true]
      refine subset_trans ?_ (ih (i + 1) _)
      exact Finset.subset_union_left
    · simp only [executeHook, h, if_false]
      exact ih (i + 1) st

theorem executeHook_new_sub (p : ℕ) (m c : Bool) :
    ∀ (info : List CallInfo) (i : ℕ) (st : SigState),
      st.newSignal ⊆ st.maxSignal →
      (executeHook p m c info i st).1.newSignal ⊆
        (executeHook p m c info i st).1.maxSignal := by
  intro info
  induction info with
  | nil => intro i st h; exact h
  | cons inf rest ih =>
    intro i st h
    by_cases hn : SignalNew st.maxSignal inf.Signal
    · simp only [executeHook, hn, if_true]
      exact ih (i + 1) _ (Finset.union_subset_union_left h)
    · simp only [executeHook, hn, if_false]
      exact ih (i + 1) st h

theorem executeHook_items_sub (p : ℕ) (m c : Bool) :
    ∀ (info : List CallInfo) (i : ℕ) (st : SigState),
      ∀ it ∈ (executeHook p m c info i st).2,
        it.signal ⊆ (executeHook p m c info i st).1.maxSignal := by
  intro info
  induction info with
  | nil => intro i st it hit; simp [executeHook] at hit
  | cons inf rest ih =>
    intro i st it hit
    by_cases hn : SignalNew st.maxSignal inf.Signal
    · simp only [executeHook, hn, if_true, List.mem_cons] at hit ⊢
      rcases hit with rfl | hit
      · refine subset_trans ?_ (executeHook_max_mono p m c rest (i + 1) _)
        intro x hx
        simp only [SignalAdd, SignalDiff, Finset.mem_union, Finset.mem_sdiff]
        by_cases hmem : x ∈ st.maxSignal
        · exact Or.inl hmem
        · exact Or.inr ⟨hx, hmem⟩
      · exact ih (i + 1) _ it hit
    · simp only [executeHook, hn, if_false] at hit ⊢
      exact ih (i + 1) st it hit

theorem stepOp_preserves (s : WorkerState) (op : WorkerOp)
    (h : WorkerInv s) : WorkerInv (stepOp s op) := by
  obtain ⟨hc, hn, hp⟩ := h
  cases op with
  | runExec p info m c =>
    refine ⟨?_, executeHook_new_sub p m c info 0 s.sig hn, ?_⟩
    · rw [stepOp, executeHook_corpus]
      exact subset_trans hc (executeHook_max_mono p m c info 0 s.sig)
    · intro it hit
      rw [stepOp, List.mem_append] at hit
      rcases hit with hit | hit
      · exact subset_trans (hp it hit) (executeHook_max_mono p m c info 0 s.sig)
      · exact executeHook_items_sub p m c info 0 s.sig it hit
  | commitTriage k =>
    rw [stepOp]
    cases hg : s.pending.get? k with
    | none => exact ⟨hc, hn, hp⟩
    | some it =>
      refine ⟨Finset.union_subset hc (hp it (List.get?_mem hg)), hn, ?_⟩
      intro it2 hit2
      exact hp it2 (List.mem_of_mem_eraseIdx hit2)
  | dropTriage k =>
    exact ⟨hc, hn, fun it hit => hp it (List.mem_of_mem_eraseIdx hit)⟩

theorem foldl_stepOp_inv (ops : List WorkerOp) :
    ∀ s : WorkerState, WorkerInv s → WorkerInv (ops.foldl stepOp s) := by
  induction ops with
  | nil => intro s h; exact h
  | cons op rest ih =>
    intro s h
    exact ih (stepOp s op) (stepOp_preserves s op h)

theorem executeRawAux_failed (oracle : ℕ → ExecResult) :
    ∀ n j r, n ≤ r → (∀ k, k < n → oracle (j + k) = .errRetryable) →
      oracle (j + n) = .failed →
      executeRawAux oracle j r = ⟨.bugNil, n + 1, n, n, n + 1⟩ := by
  intro n
  induction n with
  | zero =>
    intro j r _ _ hf
    rw [show j + 0 = j from rfl] at hf
    cases r <;> simp [executeRawAux, hf]
  | succ n ih =>
    intro j r hr hpre hf
    obtain ⟨r', rfl⟩ : ∃ r', r = r' + 1 := ⟨r - 1, by omega⟩
    have hj : oracle j = .errRetryable := by simpa using hpre 0 (by omega)
    have hrec := ih (j + 1) r' (by omega)
      (fun k hk => by
        have := hpre (k + 1) (by omega)
        rwa [show j + (k + 1) = j + 1 + k by omega] at this)
      (by rwa [show j + 1 + n = j + (n + 1) by omega])
    simp [executeRawAux, hj, hrec]

theorem failCallAux_bound (call : ℕ) (res : ℕ → Option (List CallInfo)) :
    ∀ r j, (failCallAux call res j r).1 ≤ r := by
  intro r
  induction r with
  | zero => intro j; simp [failCallAux]
  | succ r ih =>
    intro j
    by_cases hb : faultDone call (res j) = true
    · simp [failCallAux, hb]
    · simp only [failCallAux, Bool.not_eq_true] at hb ⊢
      rw [hb]
      simpa using ih (j + 1)

theorem failCallAux_first (call : ℕ) (res : ℕ → Option (List CallInfo)) :
    ∀ n j r, n < r → (∀ k, k < n → faultDone call (res (j + k)) = false) →
      faultDone call (res (j + n)) = true →
      failCallAux call res j r = (n + 1, some (j + n)) := by
  intro n
  induction n with
  | zero =>
    intro j r hr hpre hstop
    obtain ⟨r', rfl⟩ : ∃ r', r = r' + 1 := ⟨r - 1, by omega⟩
    rw [show j + 0 = j from rfl] at hstop
    simp [failCallAux, hstop]
  | succ n ih =>
    intro j r hr hpre hstop
    obtain ⟨r', rfl⟩ : ∃ r', r = r' + 1 := ⟨r - 1, by omega⟩
    have hj : faultDone call (res j) = false := by simpa using hpre 0 (by omega)
    have hrec := ih (j + 1) r' (by omega)
      (fun k hk => by
        have := hpre (k + 1) (by omega)
        rwa [show j + (k + 1) = j + 1 + k by omega] at this)
      (by rwa [show j + 1 + n = j + (n + 1) by omega])
    rw [show j + 1 + n = j + (n + 1) by omega] at hrec
    simp [failCallAux, hj, hrec]

/-- The triage runs used for the C9 scenario: the first and third
executions do not run the call, the second runs it with signal `{5}`. -/
def runsFlaky : ℕ → List CallInfo := fun j =>
  if j = 1 then [⟨{5}, [1], false⟩] else []

/-- Triage runs with a single non-execution (the first run): the second
and third executions run the call with signal `{5}`. -/
def runsTol : ℕ → List CallInfo := fun j =>
  if j = 0 then [] else [⟨{5}, [1], false⟩]

/-- C1: for every sequence of worker operations (post-execution novelty
hooks of `execute` and corpus-signal commits of `triageInput`) starting
from the empty signal state, corpus signal remains a subset of max signal
and new signal remains a subset of max signal. -/
theorem corpus_and_new_subset_max (ops : List WorkerOp) :
    ((ops.foldl stepOp initWorkerState).sig.corpusSignal ⊆
      (ops.foldl stepOp initWorkerState).sig.maxSignal) ∧
    ((ops.foldl stepOp initWorkerState).sig.newSignal ⊆
      (ops.foldl stepOp initWorkerState).sig.maxSignal) := by
  have h := foldl_stepOp_inv ops initWorkerState
    ⟨Finset.Subset.refl _, Finset.Subset.refl _,
      by intro it hit; simp [initWorkerState] at hit⟩
  exact ⟨h.1, h.2.1⟩

/-- C2: a triage item whose captured signal is fully contained in the
current corpus signal (empty difference) makes `triageInput` return
immediately with zero side effects: no execution, no manager report, no
corpus growth, corpus signal unchanged, no Smash item, no minimization. -/
theorem triageInput_redundant_no_side_effects (canon : Sig → Sig)
    (corpus : Sig) (item : TriageItem) (runs : ℕ → List CallInfo)
    (h : SignalDiff corpus item.signal = ∅) :
    triageInputModel canon corpus item runs =
      ⟨corpus, false, false, false, 0, false⟩ := by
  simp [triageInputModel, h]

theorem triageInput_redundant_no_side_effects_w :
    SignalDiff {1, 2} {1} = ∅ ∧
    triageInputModel id {1, 2} ⟨0, 0, {1}, false, false⟩ (fun _ => []) =
      ⟨{1, 2}, false, false, false, 0, false⟩ :=
  ⟨by decide,
    triageInput_redundant_no_side_effects id {1, 2} ⟨0, 0, {1}, false, false⟩
      (fun _ => []) (by decide)⟩

/-- C3 counterexample: under an environment that keeps returning a
retryable error, `executeRaw` performs 11 retry attempts (11 sleeps, 12
executions) before escalating, not at most 10 as claimed. -/
theorem executeRaw_retries_exceed_ten :
    (executeRawModel (fun _ => .errRetryable)).sleeps = 11 ∧
    ¬ ((executeRawModel (fun _ => .errRetryable)).sleeps ≤ 10) := by
  decide

/-- C3 (amended): the retry loop is bounded — at most 12 executions, with
exactly one one-second sleep and one memory-release hint between
consecutive attempts (one fewer than executions) — and an execution
retried 11 times without success escalates as fatal (panic) rather than
looping forever. -/
theorem executeRaw_retry_bounded (oracle : ℕ → ExecResult) :
    (executeRawModel oracle).execs ≤ 12 ∧
    (executeRawModel oracle).sleeps + 1 = (executeRawModel oracle).execs ∧
    (executeRawModel oracle).memReleases = (executeRawModel oracle).sleeps ∧
    ((∀ n, oracle n = .errRetryable) →
      (executeRawModel oracle).outcome = .fatal ∧
      (executeRawModel oracle).sleeps = 11 ∧
      (executeRawModel oracle).execs = 12) := by
  obtain ⟨h1, h2, h3, _⟩ := executeRawAux_counts oracle 11 0
  refine ⟨by simpa [executeRawModel] using h1,
    by simpa [executeRawModel] using h2,
    by simpa [executeRawModel] using h3, fun hall => ?_⟩
  rw [executeRawModel, executeRawAux_allRetry oracle hall 11 0]
  exact ⟨rfl, rfl, rfl⟩

theorem executeRaw_retry_bounded_w :
    (executeRawModel (fun _ => .errRetryable)).outcome = .fatal ∧
    (executeRawModel (fun _ => .errRetryable)).sleeps = 11 ∧
    (executeRawModel (fun _ => .errRetryable)).execs = 12 :=
  (executeRaw_retry_bounded (fun _ => .errRetryable)).2.2.2 (fun _ => rfl)

/-- C4: the minimization predicate accepts a candidate reduced program
only if the re-execution's canonicalized signal for the target call
contains the whole locked-in novel signal (the intersection having the
novel signal's size forces a superset). -/
theorem minimizePred_requires_superset (canon : Sig → Sig) (newSig : Sig)
    (info : List CallInfo) (call1 : ℕ)
    (h : minimizePred canon newSig info call1 = true) :
    newSig ⊆ canon ((info.getD call1 default).Signal) := by
  unfold minimizePred at h
  by_cases hb : info.length = 0 ∨ (info.getD call1 default).Signal = ∅
  · rw [if_pos hb] at h
    exact absurd h (by simp)
  · rw [if_neg hb] at h
    have hcard := of_decide_eq_true h
    have hsub : Intersection newSig (canon ((info.getD call1 default).Signal)) ⊆ newSig :=
      Finset.inter_subset_left
    have heq := Finset.eq_of_subset_of_card_le hsub (le_of_eq hcard.symm)
    rw [Intersection] at heq
    exact Finset.inter_eq_left.mp heq

theorem minimizePred_requires_superset_w :
    minimizePred id {1} [(⟨{1, 2}, [], false⟩ : CallInfo)] 0 = true ∧
    ({1} : Sig) ⊆ id ((([(⟨{1, 2}, [], false⟩ : CallInfo)]).getD 0 default).Signal) :=
  ⟨by decide,
    minimizePred_requires_superset id {1} [(⟨{1, 2}, [], false⟩ : CallInfo)] 0 (by decide)⟩

/-- C5: for a non-pre-minimized triage item, if the running intersection
of canonicalized per-run signals with the novel signal becomes empty
during deflaking, `triageInput` terminates immediately: no manager
report, no corpus growth, corpus signal unchanged, no Smash item, no
minimization. -/
theorem triageInput_empty_intersection_aborts (canon : Sig → Sig)
    (corpus : Sig) (item : TriageItem) (runs : ℕ → List CallInfo)
    (hmin : item.minimized = false)
    (hnew : SignalDiff corpus item.signal ≠ ∅)
    (habort : (deflake canon item.call runs 0 3
      (canon (SignalDiff corpus item.signal)) [] false).2 = .abortEmpty) :
    triageInputModel canon corpus item runs =
      ⟨corpus, false, false, false,
        (deflake canon item.call runs 0 3
          (canon (SignalDiff corpus item.signal)) [] false).1, false⟩ := by
  simp only [triageInputModel, if_neg hnew, hmin, Bool.false_eq_true, if_false]
  rcases hd : deflake canon item.call runs 0 3
    (canon (SignalDiff corpus item.signal)) [] false with ⟨e, res⟩
  rw [hd] at habort
  cases res with
  | abortFlaky => exact DeflakeRes.noConfusion habort
  | abortEmpty => rfl
  | ok s c => exact DeflakeRes.noConfusion habort

theorem triageInput_empty_intersection_aborts_w :
    triageInputModel id ∅ ⟨0, 0, {5}, false, false⟩
      (fun j => if j = 0 then [(⟨{7}, [1], false⟩ : CallInfo)] else []) =
      ⟨∅, false, false, false,
        (deflake id 0 (fun j => if j = 0 then [(⟨{7}, [1], false⟩ : CallInfo)] else [])
          0 3 (id (SignalDiff ∅ {5})) [] false).1, false⟩ :=
  triageInput_empty_intersection_aborts id ∅ ⟨0, 0, {5}, false, false⟩
    (fun j => if j = 0 then [(⟨{7}, [1], false⟩ : CallInfo)] else [])
    rfl (by decide) (by decide)

/-- C6: when the environment reports the failed (BUG-detected) flag —
after any number of preceding retryable failures — `executeRaw` returns
nil with no further retry (no extra sleep) and no per-call results, so
`execute`'s novelty hook observes no calls, leaves the signal state
unchanged, and enqueues no triage item. -/
theorem executeRaw_bug_discards_run (oracle : ℕ → ExecResult) (p n : ℕ)
    (m c : Bool) (st : SigState)
    (hn : n ≤ 11)
    (hpre : ∀ k ∈ List.range n, oracle k = .errRetryable)
    (hf : oracle n = .failed) :
    executeRawModel oracle = ⟨.bugNil, n + 1, n, n, n + 1⟩ ∧
    executeModel oracle p m c st = some (st, [], n + 1) := by
  have hr : executeRawModel oracle = ⟨.bugNil, n + 1, n, n, n + 1⟩ := by
    rw [executeRawModel]
    exact executeRawAux_failed oracle n 0 11 hn
      (fun k hk => by simpa using hpre k (List.mem_range.mpr hk))
      (by simpa using hf)
  exact ⟨hr, by rw [executeModel, hr]⟩

theorem executeRaw_bug_discards_run_w :
    executeRawModel (fun _ => .failed) = ⟨.bugNil, 1, 0, 0, 1⟩ ∧
    executeModel (fun _ => .failed) 0 false false ⟨∅, ∅, ∅⟩ =
      some (⟨∅, ∅, ∅⟩, [], 1) :=
  executeRaw_bug_discards_run (fun _ => .failed) 0 0 false false ⟨∅, ∅, ∅⟩
    (by decide) (by decide) rfl

/-- C7: in an idle worker-loop iteration, an empty corpus snapshot or an
iteration counter divisible by 100 takes the Generate path (in particular
iteration 0 with an empty corpus); otherwise the Fuzz path is taken,
mutating the program picked at the random index with the corpus snapshot
as mutation source. -/
theorem loop_idle_generate_or_fuzz (corpus : List ℕ) (i idx : ℕ) :
    ((corpus.length = 0 ∨ i % 100 = 0) →
      idleStep corpus i idx = ⟨.generate, none, []⟩) ∧
    (corpus.length ≠ 0 → i % 100 ≠ 0 →
      idleStep corpus i idx = ⟨.fuzz, some idx, corpus⟩) := by
  constructor
  · intro h
    rw [idleStep, if_pos h]
  · intro h1 h2
    rw [idleStep, if_neg (not_or.mpr ⟨h1, h2⟩)]

theorem loop_idle_generate_or_fuzz_w :
    idleStep [] 0 0 = ⟨.generate, none, []⟩ ∧
    idleStep [7] 1 0 = ⟨.fuzz, some 0, [7]⟩ :=
  ⟨(loop_idle_generate_or_fuzz [] 0 0).1 (by decide),
    (loop_idle_generate_or_fuzz [7] 1 0).2 (by decide) (by decide)⟩

/-- C8: `failCall` performs fault-injection trials for nth = 0, 1, ... up
to the cap of 100 and stops at the first trial whose result reports the
fault as not injected for the target call: if the first n trials keep the
loop going and trial n breaks it, exactly n + 1 executions run and the
loop stops at trial index n; the trial count never exceeds 100. -/
theorem failCall_stops_at_first_noninjected (call : ℕ)
    (res : ℕ → Option (List CallInfo)) (n : ℕ)
    (hn : n < 100)
    (hpre : ∀ k ∈ List.range n, faultDone call (res k) = false)
    (hstop : faultDone call (res n) = true) :
    failCallModel call res = (n + 1, some n) ∧
    ∀ res2 : ℕ → Option (List CallInfo), (failCallModel call res2).1 ≤ 100 := by
  refine ⟨?_, fun res2 => failCallAux_bound call res2 100 0⟩
  have h := failCallAux_first call res n 0 100 hn
    (fun k hk => by simpa using hpre k (List.mem_range.mpr hk))
    (by simpa using hstop)
  simpa [failCallModel] using h

theorem failCall_stops_at_first_noninjected_w :
    failCallModel 0 (fun k => some [(⟨∅, [], decide (k < 5)⟩ : CallInfo)]) =
      (6, some 5) :=
  (failCall_stops_at_first_noninjected 0
    (fun k => some [(⟨∅, [], decide (k < 5)⟩ : CallInfo)]) 5
    (by decide) (by decide) (by decide)).1

/-- C9 counterexample: with the first and third triage runs not executing
the call and the second run executing it with a signal that keeps the
intersection non-empty, the deflake loop aborts as flaky and `triageInput`
produces no report — refuting the claim that a non-execution followed by a
successful execution does not let a later single non-execution abort
triage. -/
theorem triage_nonconsecutive_nonexec_cx :
    (deflake id 0 runsFlaky 0 3 {5} [] false).2 = .abortFlaky ∧
    (triageInputModel id ∅ ⟨0, 0, {5}, false, false⟩ runsFlaky).reported = false := by
  decide

/-- C9 (amended): during the up-to-3 deflaking executions a non-execution
of the target call is tolerated once, but triage aborts on the second
non-execution at whatever pair of positions the two non-executions occur,
consecutive or not — the flaky flag is never reset by an intervening
successful execution — provided no executed run before the second
non-execution empties the running intersection (which would abort for
C5's reason instead); and with at most one non-execution, every executed
run keeping the running intersection non-empty, the loop completes
without aborting. -/
theorem triage_second_nonexec_aborts (canon : Sig → Sig) (call : ℕ)
    (runs : ℕ → List CallInfo) (s0 : Sig) (cover0 : List ℕ) :
    (∀ i j : ℕ, i < j → j ≤ 2 →
      nonExec call (runs i) → nonExec call (runs j) →
      (∀ k ∈ List.range j, ¬ nonExec call (runs k) →
        deflakeSig canon call runs (k + 1) s0 ≠ ∅) →
      (deflake canon call runs 0 3 s0 cover0 false).2 = .abortFlaky) ∧
    ((∀ i ∈ List.range 3, ∀ j ∈ List.range 3, i < j →
        nonExec call (runs i) → nonExec call (runs j) → False) →
      (∀ k ∈ List.range 3, ¬ nonExec call (runs k) →
        deflakeSig canon call runs (k + 1) s0 ≠ ∅) →
      ∃ sig cov, (deflake canon call runs 0 3 s0 cover0 false).2 = .ok sig cov) := by
  constructor
  · intro i j hij hj hni hnj hne
    have hcases : (i = 0 ∧ j = 1) ∨ (i = 0 ∧ j = 2) ∨ (i = 1 ∧ j = 2) := by omega
    rcases hcases with ⟨rfl, rfl⟩ | ⟨rfl, rfl⟩ | ⟨rfl, rfl⟩
    · simp [deflake, hni, hnj]
    · by_cases h1 : nonExec call (runs 1)
      · simp [deflake, hni, h1]
      · have e1 := hne 1 (by simp) h1
        simp [deflakeSig, hni, h1] at e1
        simp [deflake, hni, h1, hnj, e1]
    · by_cases h0 : nonExec call (runs 0)
      · simp [deflake, h0, hni]
      · have e0 := hne 0 (by simp) h0
        simp [deflakeSig, h0] at e0
        simp [deflake, h0, hni, hnj, e0]
  · intro hno hne
    by_cases h0 : nonExec call (runs 0) <;> by_cases h1 : nonExec call (runs 1) <;>
      by_cases h2 : nonExec call (runs 2)
    · exact (hno 0 (by simp) 1 (by simp) (by omega) h0 h1).elim
    · exact (hno 0 (by simp) 1 (by simp) (by omega) h0 h1).elim
    · exact (hno 0 (by simp) 2 (by simp) (by omega) h0 h2).elim
    · have e1 := hne 1 (by simp) h1
      have e2 := hne 2 (by simp) h2
      simp [deflakeSig, h0, h1] at e1
      simp [deflakeSig, h0, h1, h2] at e2
      simp [deflake, h0, h1, h2, e1, e2]
    · exact (hno 1 (by simp) 2 (by simp) (by omega) h1 h2).elim
    · have e0 := hne 0 (by simp) h0
      have e2 := hne 2 (by simp) h2
      simp [deflakeSig, h0] at e0
      simp [deflakeSig, h0, h1, h2] at e2
      simp [deflake, h0, h1, h2, e0, e2]
    · have e0 := hne 0 (by simp) h0
      have e1 := hne 1 (by simp) h1
      simp [deflakeSig, h0] at e0
      simp [deflakeSig, h0, h1] at e1
      simp [deflake, h0, h1, h2, e0, e1]
    · have e0 := hne 0 (by simp) h0
      have e1 := hne 1 (by simp) h1
      have e2 := hne 2 (by simp) h2
      simp [deflakeSig, h0] at e0
      simp [deflakeSig, h0, h1] at e1
      simp [deflakeSig, h0, h1, h2] at e2
      simp [deflake, h0, h1, h2, e0, e1, e2]

theorem triage_second_nonexec_aborts_w :
    (deflake id 0 runsFlaky 0 3 {5} [] false).2 = .abortFlaky ∧
    (∃ sig cov, (deflake id 0 runsTol 0 3 {5} [] false).2 = .ok sig cov) :=
  ⟨(triage_second_nonexec_aborts id 0 runsFlaky {5} []).1 0 2
      (by decide) (by decide) (by decide) (by decide) (by decide),
    (triage_second_nonexec_aborts id 0 runsTol {5} []).2 (by decide) (by decide)⟩

/-- C10: the statistics counter for the given kind is incremented exactly
once per execution attempt (stat increments always equal `env.Exec`
invocations), so an `executeRaw` that succeeds after n retryable failures
increments the counter n + 1 times. -/
theorem executeRaw_stat_once_per_attempt (oracle : ℕ → ExecResult)
    (n : ℕ) (info : List CallInfo)
    (hn : n ≤ 11)
    (hpre : ∀ k ∈ List.range n, oracle k = .errRetryable)
    (hok : oracle n = .ok info) :
    (∀ g : ℕ → ExecResult, (executeRawModel g).stats = (executeRawModel g).execs) ∧
    (executeRawModel oracle).outcome = .ok info ∧
    (executeRawModel oracle).stats = n + 1 ∧
    (executeRawModel oracle).execs = n + 1 := by
  have hs : executeRawModel oracle = ⟨.ok info, n + 1, n, n, n + 1⟩ := by
    rw [executeRawModel]
    exact executeRawAux_success oracle info n 0 11 hn
      (fun k hk => by simpa using hpre k (List.mem_range.mpr hk))
      (by simpa using hok)
  refine ⟨fun g => (executeRawAux_counts g 11 0).2.2.2, ?_, ?_, ?_⟩ <;> rw [hs]

theorem executeRaw_stat_once_per_attempt_w :
    (executeRawModel (fun k => if k < 3 then .errRetryable else .ok [])).stats = 4 ∧
    (executeRawModel (fun k => if k < 3 then .errRetryable else .ok [])).execs = 4 :=
  ⟨(executeRaw_stat_once_per_attempt (fun k => if k < 3 then .errRetryable else .ok [])
      3 [] (by decide) (by decide) (by decide)).2.2.1,
    (executeRaw_stat_once_per_attempt (fun k => if k < 3 then .errRetryable else .ok [])
      3 [] (by decide) (by decide) (by decide)).2.2.2⟩

end Proc
